import Mathlib

/-!
# boar-go `instrument` package: embedding and checked properties

Shallow embedding of `src/instrument/instrument.go`.

Conventions of the embedding

* A Go `map[string]β` is its list of entries, in the order a `range` loop
  visits them.  Go leaves that order unspecified, so every statement about a
  map quantifies over all entry lists with pairwise distinct keys.
* `time.Time` values are integers: nanoseconds on one common time line.
  `time.Now()` is an explicit argument (a clock reading).
* A finite `float64` is the rational number it denotes, and a floating-point
  operation is the exact operation followed by rounding to the nearest
  `float64`, ties to even (`toFloat64`).  `Tracer.Stop` and `Request.Stop`
  take the rounding of the elapsed nanosecond count as the argument
  `roundMs`; the rounding the code performs,
  `ParseFloat(FormatFloat(float64(n) / 1000000.0, 'f', 4, 64), 64)`, is
  `roundedMillis`.
* Pointers to `Tracer` are addresses (natural numbers) into a store.
* The package-level variables are the fields of `Config`.
* The channel `requests` is the sequence of values sent on it.  A send that
  has to wait for room in the buffer is not told apart from one that
  completes at once; goroutine scheduling is not modelled.
* Library calls whose outcome the package does not determine (`os.Getenv`,
  `json.Marshal`, `url.Parse` inside `http.NewRequest`, `cli.Do`) are
  function arguments.
* A run-time panic is an explicit result.
-/

namespace Boar

/-! ## Go maps -/

/-- Entries of a Go `map[string]β`, in iteration order. -/
abbrev GoMap (β : Type) := List (String × β)

namespace GoMap

/-- The map read `m[k]` with its presence flag. -/
def get {β : Type} : GoMap β → String → Option β
  | [], _ => none
  | (k', v) :: m, k => if k' = k then some v else get m k

/-- The map assignment `m[k] = v`. -/
def set {β : Type} : GoMap β → String → β → GoMap β
  | [], k, v => [(k, v)]
  | (k', v') :: m, k, v => if k' = k then (k, v) :: m else (k', v') :: set m k v

/-- The keys, in iteration order. -/
def keys {β : Type} (m : GoMap β) : List String := m.map Prod.fst

/-- Well-formed entry list of a map: no key occurs twice. -/
def WF {β : Type} (m : GoMap β) : Prop := (keys m).Nodup

instance decidableWF {β : Type} (m : GoMap β) : Decidable (WF m) :=
  inferInstanceAs (Decidable (keys m).Nodup)

end GoMap

/-! ## Panics and time -/

/-- The run-time panics the package can raise. -/
inductive Panic where
  | indexOutOfRange
  | nilDereference
  deriving DecidableEq

/-- A finite `float64` value. -/
abbrev Float64 := ℚ

/-- Smallest `time.Duration` (an `int64` count of nanoseconds). -/
def minDuration : Int := -(2 ^ 63)

/-- Largest `time.Duration`. -/
def maxDuration : Int := 2 ^ 63 - 1

/-- The call `t.Sub(u).Nanoseconds()`: the difference of two instants,
saturated to the `int64` range as `time.Time.Sub` does. -/
def timeSub (t u : Int) : Int := max minDuration (min maxDuration (t - u))

/-! ## The rounding of durations -/

/-- Rounding of a rational to the nearest integer, a tie going to the even
neighbour. -/
def roundHalfEven (z : ℚ) : Int :=
  if z - ⌊z⌋ < 1 / 2 then ⌊z⌋
  else if 1 / 2 < z - ⌊z⌋ then ⌊z⌋ + 1
  else if ⌊z⌋ % 2 = 0 then ⌊z⌋ else ⌊z⌋ + 1

/-- Exponent of the unit in the last place of the `float64` nearest to `x`:
53 significant bits, and not below the exponent of the subnormal numbers. -/
def binaryExponent (x : ℚ) : Int := max (Int.log 2 |x| - 52) (-1074)

/-- Rounding of a rational to the nearest `float64` (IEEE 754 binary64, round
to nearest, ties to even).  Magnitudes of `2 ^ 1024` and more, which have no
finite `float64`, do not arise from an `int64` count of nanoseconds. -/
def toFloat64 (x : ℚ) : Float64 :=
  (roundHalfEven (x / 2 ^ binaryExponent x) : ℚ) * 2 ^ binaryExponent x

/-- The value of the text `strconv.FormatFloat(l, 'f', 4, 64)`: the exact value
of `l` rounded to 4 decimal places, a tie going to the even last digit. -/
def formatFixed4 (l : Float64) : ℚ := (roundHalfEven (l * 10000) : ℚ) / 10000

/-- The statements
`l := float64(n) / 1000000.0`, `parsed := strconv.FormatFloat(l, 'f', 4, 64)`,
`f, _ := strconv.ParseFloat(parsed, 64)` of `Tracer.Stop` and `Request.Stop`,
for the elapsed nanosecond count `n`: conversion, division and parsing each
round to the nearest `float64`. -/
def roundedMillis (n : Int) : Float64 :=
  toFloat64 (formatFixed4 (toFloat64 (toFloat64 (n : ℚ) / 1000000)))

/-! ## Configuration -/

/-- The constant `MaxQueueSize`. -/
def MaxQueueSize : Nat := 10

/-- The package-level variables `appName`, `boarToken`, `boarEnv`,
`boarTransmit` and `boarEndpoint`. -/
structure Config where
  appName : String
  boarToken : String
  boarEnv : String
  boarTransmit : Bool
  boarEndpoint : String
  deriving DecidableEq

/-- The values the package-level variables have at program start. -/
def Config.initial : Config :=
  { appName := "", boarToken := "", boarEnv := "", boarTransmit := false,
    boarEndpoint := "https://push.boar.io" }

/-- The function `Start`, as its effect on the package-level variables.
`getenv` is `os.Getenv`.  (The dispatcher goroutine it launches is
`processQueue`, modelled below as a step function.) -/
def Start (getenv : String → String) (token env app : String) (c : Config) : Config :=
  let c1 := { c with boarToken := token, boarEnv := env, appName := app }
  if c1.boarToken ≠ "" then
    let c2 := { c1 with boarTransmit := true }
    let altEndpoint := getenv "BOAR_ENDPOINT"
    if altEndpoint ≠ "" then { c2 with boarEndpoint := altEndpoint } else c2
  else c1

/-! ## Data model -/

/-- The struct `Tracer` (its mutex left out).  `Tree` and `Parent` hold
addresses of other tracers. -/
structure Tracer where
  StartedAt : Int
  StoppedAt : Int
  Duration : Float64
  Tree : List Nat
  Name : String
  Description : String
  Parent : Option Nat
  deriving DecidableEq

/-- The zero value `Tracer{}`. -/
def Tracer.zero : Tracer :=
  { StartedAt := 0, StoppedAt := 0, Duration := 0, Tree := [], Name := "",
    Description := "", Parent := none }

/-- The struct `Request`. -/
structure Request where
  RequestID : String
  HopCount : String
  Duration : Float64
  Method : String
  Endpoint : String
  URI : String
  Hostname : String
  App : String
  StartedAt : Int
  StoppedAt : Int
  Params : GoMap String
  Headers : GoMap String
  Env : String
  Events : Tracer
  Status : Int
  deriving DecidableEq

/-! ## NewRequest -/

/-- The loop `for k, v := range params { req.Params[k] = v[0] }`. -/
def collapseParams : List (String × List String) → GoMap String → Except Panic (GoMap String)
  | [], acc => .ok acc
  | (_, []) :: _, _ => .error Panic.indexOutOfRange
  | (k, x :: _) :: rest, acc => collapseParams rest (acc.set k x)

/-- The function `NewRequest`; `now` is the reading of `time.Now()`. -/
def NewRequest (c : Config) (now : Int) (hostname uri endpoint method : String)
    (params : GoMap (List String)) : Except Panic Request :=
  let req : Request :=
    { RequestID := "", HopCount := "", Duration := 0,
      Method := method, Endpoint := endpoint, URI := uri, Hostname := hostname,
      App := c.appName, StartedAt := now, StoppedAt := 0,
      Params := [], Headers := [], Env := c.boarEnv,
      Events := Tracer.zero, Status := 0 }
  match collapseParams params req.Params with
  | .error p => .error p
  | .ok ps => .ok { req with Params := ps }

/-! ## Request.Stop -/

/-- The literal alternatives of the pattern `^(X-|Cookie|Authorization|If-)`. -/
def excludedStarts : List String := ["X-", "Cookie", "Authorization", "If-"]

/-- The test `reg.MatchString(h)` for `reg = ^(X-|Cookie|Authorization|If-)`:
the anchored pattern matches exactly when `h` begins with one of the four
literals. -/
def matchString (h : String) : Bool :=
  excludedStarts.any (fun p => p.toList.isPrefixOf h.toList)

/-- The loop
`for h, v := range headers { if !reg.MatchString(h) { r.Headers[h] = v[0] } }`. -/
def copyHeaders : List (String × List String) → GoMap String → Except Panic (GoMap String)
  | [], acc => .ok acc
  | (h, v) :: rest, acc =>
    if matchString h then copyHeaders rest acc
    else
      match v with
      | [] => .error Panic.indexOutOfRange
      | x :: _ => copyHeaders rest (acc.set h x)

/-- How a call of `Request.Stop` ends: with a panic, or normally with the
finalized record.  Either way `queue` is the sequence of values sent on the
channel `requests` so far. -/
inductive StopResult where
  | panicked (p : Panic) (queue : List Request)
  | done (r : Request) (queue : List Request)
  deriving DecidableEq

/-- The method `Request.Stop`.  `root` is the pointer argument: `none` for a
nil pointer, else the tracer it refers to, which the first statement
`r.Events = *root` copies.  `now` is the reading of `time.Now()`, `queue`
the values sent on `requests` before the call. -/
def Request.Stop (roundMs : Int → Float64) (now : Int) (r : Request) (root : Option Tracer)
    (reqid hop : String) (status : Int) (headers : GoMap (List String))
    (queue : List Request) : StopResult :=
  match root with
  | none => .panicked Panic.nilDereference queue
  | some events =>
    let r1 := { r with Events := events, RequestID := reqid, HopCount := hop,
                       Status := status }
    match copyHeaders headers r1.Headers with
    | .error p => .panicked p queue
    | .ok hs =>
      let r2 := { r1 with Headers := hs, StoppedAt := now }
      let r3 := { r2 with Duration := roundMs (timeSub r2.StoppedAt r2.StartedAt) }
      .done r3 (queue ++ [r3])

/-- What the header loop of `Request.Stop` stores under the name `k`: nothing
for a name the pattern matches, else the first value listed for `k`. -/
def keptHeader (headers : GoMap (List String)) (k : String) : Option String :=
  if matchString k then none else (headers.get k).bind List.head?

/-- A header entry on which the loop of `Request.Stop` indexes an empty list:
its name is not matched by the pattern and it lists no value. -/
def BadHeader (e : String × List String) : Prop := matchString e.1 = false ∧ e.2 = []

instance decidableBadHeader (e : String × List String) : Decidable (BadHeader e) :=
  inferInstanceAs (Decidable (matchString e.1 = false ∧ e.2 = []))

/-! ## The dispatcher: processQueue -/

/-- What one turn of the `select` in `processQueue` can receive: a tick of the
five-second ticker, or a record from the channel `requests`. -/
inductive Event where
  | tick
  | receive (r : Request)
  deriving DecidableEq

/-- State of `processQueue` between two turns of its loop: the slice `reqs`,
and the batches passed to `go sendQueue(...)` so far, oldest first. -/
structure Dispatcher where
  reqs : List Request
  sent : List (List Request)
  deriving DecidableEq

/-- State on entry to the loop: an empty slice, nothing handed off. -/
def Dispatcher.initial : Dispatcher := { reqs := [], sent := [] }

/-- One turn of the loop of `processQueue`. -/
def step (s : Dispatcher) : Event → Dispatcher
  | Event.tick => { reqs := [], sent := s.sent ++ [s.reqs] }
  | Event.receive r =>
    let reqs := s.reqs ++ [r]
    if reqs.length > MaxQueueSize then { reqs := [], sent := s.sent ++ [reqs] }
    else { reqs := reqs, sent := s.sent }

/-- The loop of `processQueue` run over a finite sequence of events. -/
def processQueue (events : List Event) : Dispatcher :=
  events.foldl step Dispatcher.initial

/-- The records received in a sequence of events, in arrival order. -/
def received : List Event → List Request
  | [] => []
  | Event.tick :: es => received es
  | Event.receive r :: es => r :: received es

/-- Bounds kept by every turn of the loop of `processQueue`: the slice holds at
most `MaxQueueSize` records, a batch handed off at most one more. -/
def Dispatcher.Bounded (s : Dispatcher) : Prop :=
  s.reqs.length ≤ MaxQueueSize ∧ ∀ b ∈ s.sent, b.length ≤ MaxQueueSize + 1

instance decidableBounded (s : Dispatcher) : Decidable s.Bounded :=
  inferInstanceAs (Decidable (s.reqs.length ≤ MaxQueueSize ∧
    ∀ b ∈ s.sent, b.length ≤ MaxQueueSize + 1))

/-! ## The transmitter: sendQueue -/

/-- The outbound request as `sendQueue` builds it. -/
structure HttpRequest where
  method : String
  url : String
  header : List (String × String)
  body : String
  deriving DecidableEq

/-- Outcomes of the library calls `sendQueue` makes: `marshal` is
`json.Marshal` (`none` for an error), `urlParse` tells whether `url.Parse`
accepts a text (the one way `http.NewRequest` can fail for the method
`POST`), `transport` whether `cli.Do` returns without error. -/
structure Lib where
  marshal : List Request → Option String
  urlParse : String → Bool
  transport : HttpRequest → Bool

/-- The call `http.NewRequest(method, url, body)`: `none` is the result
`(nil, err)`. -/
def httpNewRequest (lib : Lib) (method url body : String) : Option HttpRequest :=
  if lib.urlParse url then some { method := method, url := url, header := [], body := body }
  else none

/-- Observable actions of `sendQueue`: a line written by `log.Printf`, and a
request passed to `cli.Do`. -/
inductive Effect where
  | log (msg : String)
  | send (req : HttpRequest)
  deriving DecidableEq

/-- How a call of `sendQueue` ends, with the actions it performed. -/
inductive SendResult where
  | returned (effects : List Effect)
  | panicked (p : Panic) (effects : List Effect)
  deriving DecidableEq

/-- The function `sendQueue`. -/
def sendQueue (lib : Lib) (c : Config) (reqs : List Request) : SendResult :=
  if !c.boarTransmit || reqs.length == 0 then SendResult.returned []
  else
    match lib.marshal reqs with
    | none => SendResult.returned [Effect.log "Error sending queue"]
    | some b =>
      match httpNewRequest lib "POST" (c.boarEndpoint ++ "/requests") b with
      | none => SendResult.panicked Panic.nilDereference []
      | some req =>
        let req1 := { req with header := req.header ++ [("Authorization", "Token " ++ c.boarToken)] }
        if lib.transport req1 then SendResult.returned [Effect.send req1]
        else SendResult.returned [Effect.send req1, Effect.log "Error sending"]

/-- The requests a result passed to `cli.Do`. -/
def SendResult.sends : SendResult → List HttpRequest
  | SendResult.returned es | SendResult.panicked _ es =>
    es.filterMap (fun e => match e with
      | Effect.send r => some r
      | Effect.log _ => none)

/-- The first check `url.Parse` makes on a text with no control character,
that of `getScheme` in `net/url`: a text whose first byte is a colon is
rejected with the error "missing protocol scheme". -/
def schemeCheck (raw : String) : Bool :=
  match raw.toList with
  | ':' :: _ => false
  | _ => true

/-! ## Tracers -/

/-- The method `Tracer.Stop` on the value of the tracer; `now` is the reading
of `time.Now()`. -/
def Tracer.Stop (roundMs : Int → Float64) (now : Int) (t : Tracer) : Tracer :=
  let t1 := { t with StoppedAt := now }
  { t1 with Duration := roundMs (timeSub t1.StoppedAt t1.StartedAt) }

/-- The tracers allocated so far: the value at each address, and the next
free address. -/
structure Store where
  cells : Nat → Tracer
  next : Nat

/-- Update of the tracer at address `p`. -/
def Store.update (s : Store) (p : Nat) (f : Tracer → Tracer) : Store :=
  { s with cells := fun q => if q = p then f (s.cells q) else s.cells q }

/-- The function `NewTracer`: allocates a tracer and returns its address. -/
def NewTracer (parent : Option Nat) (name desc : String) (now : Int) (s : Store) :
    Nat × Store :=
  let t : Tracer := { Tracer.zero with Name := name, Description := desc,
                                       StartedAt := now, Parent := parent }
  (s.next, { cells := fun q => if q = s.next then t else s.cells q, next := s.next + 1 })

/-- Successive readings of `time.Now()`, the next one first. -/
abbrev Clock := Nat → Int

/-- The store at the moment `Instrument` calls its function argument: the new
tracer is allocated and appended to the tree of `t`. -/
def atCall (t : Nat) (name desc : String) (clock : Clock) (s : Store) : Store :=
  (NewTracer (some t) name desc (clock 0) s).2.update t
    (fun c => { c with Tree := c.Tree ++ [(NewTracer (some t) name desc (clock 0) s).1] })

/-- A record as `NewRequest` returns it for `GET /users` at time 5 under the
initial configuration. -/
def sampleRecord : Request :=
  { RequestID := "", HopCount := "", Duration := 0, Method := "GET", Endpoint := "/users",
    URI := "/users", Hostname := "h", App := "", StartedAt := 5, StoppedAt := 0,
    Params := [], Headers := [], Env := "", Events := Tracer.zero, Status := 0 }

/-- Library outcomes in which nothing fails and `url.Parse` is the scheme
check alone. -/
def sampleLib : Lib :=
  { marshal := fun _ => some "[...]", urlParse := schemeCheck, transport := fun _ => true }

theorem GoMap.get_set {β : Type} (m : GoMap β) (k k' : String) (v : β) :
    (m.set k v).get k' = if k = k' then some v else m.get k' := by
  induction m with
  | nil => simp [GoMap.set, GoMap.get]
  | cons e m ih =>
    obtain ⟨a, b⟩ := e
    by_cases h : a = k
    · subst h
      by_cases h' : a = k' <;> simp [GoMap.set, GoMap.get, h']
    · by_cases h' : a = k'
      · subst h'
        have : ¬ k = a := fun e => h e.symm
        simp [GoMap.set, GoMap.get, h, this]
      · simp [GoMap.set, GoMap.get, h, h', ih]

theorem GoMap.get_eq_none_iff {β : Type} (m : GoMap β) (k : String) :
    m.get k = none ↔ k ∉ m.keys := by
  induction m with
  | nil => simp [GoMap.get, GoMap.keys]
  | cons e m ih =>
    obtain ⟨a, b⟩ := e
    by_cases h : a = k
    · simp [GoMap.get, GoMap.keys, h]
    · have h' : ¬ k = a := fun e => h e.symm
      simp only [GoMap.keys] at ih
      simp [GoMap.get, GoMap.keys, h, h', ih]

theorem GoMap.mem_keys_iff {β : Type} (m : GoMap β) (k : String) :
    k ∈ m.keys ↔ (m.get k).isSome = true := by
  by_cases h : k ∈ m.keys
  · have : m.get k ≠ none := fun e => ((GoMap.get_eq_none_iff m k).1 e) h
    simp [h, Option.isSome_iff_ne_none, this]
  · have : m.get k = none := (GoMap.get_eq_none_iff m k).2 h
    simp [h, this]

theorem GoMap.keys_set {β : Type} (m : GoMap β) (k : String) (v : β) (k' : String) :
    k' ∈ (m.set k v).keys ↔ k' = k ∨ k' ∈ m.keys := by
  rw [GoMap.mem_keys_iff, GoMap.get_set, GoMap.mem_keys_iff]
  by_cases h : k = k'
  · simp [h]
  · have : ¬ k' = k := fun e => h e.symm
    simp [h, this]

theorem GoMap.wf_set {β : Type} (m : GoMap β) (k : String) (v : β) (h : m.WF) :
    (m.set k v).WF := by
  induction m with
  | nil => simp [GoMap.set, GoMap.WF, GoMap.keys]
  | cons e m ih =>
    obtain ⟨a, b⟩ := e
    have hm : GoMap.WF m := by
      simp only [GoMap.WF, GoMap.keys, List.map_cons, List.nodup_cons] at h ⊢
      exact h.2
    have ha : a ∉ GoMap.keys m := by
      simp only [GoMap.WF, GoMap.keys, List.map_cons, List.nodup_cons] at h ⊢
      exact h.1
    by_cases hk : a = k
    · subst hk
      simpa [GoMap.set, GoMap.WF, GoMap.keys] using h
    · have h1 : a ∉ GoMap.keys (GoMap.set m k v) := by
        rw [GoMap.keys_set]
        rintro (e | e)
        · exact hk e
        · exact ha e
      have h2 := ih hm
      simp only [GoMap.set, hk, if_false, GoMap.WF, GoMap.keys, List.map_cons,
        List.nodup_cons] at h1 h2 ⊢
      exact ⟨h1, h2⟩

theorem GoMap.wf_tail {β : Type} (e : String × β) (m : GoMap β) (h : GoMap.WF (e :: m)) :
    e.1 ∉ GoMap.keys m ∧ GoMap.WF m := by
  simpa [GoMap.WF, GoMap.keys] using h

/-! ## The loops over maps -/

theorem copyHeaders_ok (hs : GoMap (List String)) (acc : GoMap String)
    (hwf : GoMap.WF hs) (hne : ∀ e ∈ hs, ¬ BadHeader e) :
    ∃ out, copyHeaders hs acc = .ok out ∧ (acc.WF → out.WF) ∧
      ∀ k, out.get k = (keptHeader hs k).orElse (fun _ => acc.get k) := by
  induction hs generalizing acc with
  | nil => exact ⟨acc, rfl, id, fun k => by simp [keptHeader, GoMap.get]⟩
  | cons e hs ih =>
    obtain ⟨h, v⟩ := e
    obtain ⟨hnot, hwf'⟩ := GoMap.wf_tail (h, v) hs hwf
    have hne' : ∀ e ∈ hs, ¬ BadHeader e := fun e he => hne e (List.mem_cons_of_mem _ he)
    have hrest : GoMap.get hs h = none := (GoMap.get_eq_none_iff hs h).2 hnot
    by_cases hm : matchString h = true
    · obtain ⟨out, ho, hw, hg⟩ := ih acc hwf' hne'
      refine ⟨out, by simp [copyHeaders, hm, ho], hw, ?_⟩
      intro k
      rw [hg k]
      by_cases hk : h = k
      · subst hk; simp [keptHeader, hm]
      · simp [keptHeader, GoMap.get, hk]
    · have hm' : matchString h = false := by simpa using hm
      cases v with
      | nil => exact absurd ⟨hm', rfl⟩ (hne (h, []) (List.mem_cons_self _ _))
      | cons x xs =>
        obtain ⟨out, ho, hw, hg⟩ := ih (acc.set h x) hwf' hne'
        refine ⟨out, by simp [copyHeaders, hm', ho], fun ha => hw (GoMap.wf_set acc h x ha), ?_⟩
        intro k
        rw [hg k, GoMap.get_set]
        by_cases hk : h = k
        · subst hk
          simp [keptHeader, hm', GoMap.get, hrest]
        · simp [keptHeader, GoMap.get, hk]

theorem copyHeaders_error (hs : GoMap (List String)) (acc : GoMap String)
    (hbad : ∃ e ∈ hs, BadHeader e) : copyHeaders hs acc = .error Panic.indexOutOfRange := by
  induction hs generalizing acc with
  | nil => simp at hbad
  | cons e hs ih =>
    obtain ⟨h, v⟩ := e
    by_cases hm : matchString h = true
    · have : ∃ e ∈ hs, BadHeader e := by
        obtain ⟨e, he, hb⟩ := hbad
        rcases List.mem_cons.1 he with rfl | he
        · exact absurd hb.1 (by simp [hm])
        · exact ⟨e, he, hb⟩
      simp [copyHeaders, hm, ih acc this]
    · have hm' : matchString h = false := by simpa using hm
      cases v with
      | nil => simp [copyHeaders, hm']
      | cons x xs =>
        have : ∃ e ∈ hs, BadHeader e := by
          obtain ⟨e, he, hb⟩ := hbad
          rcases List.mem_cons.1 he with rfl | he
          · exact absurd hb.2 (by simp)
          · exact ⟨e, he, hb⟩
        simp [copyHeaders, hm', ih (acc.set h x) this]

theorem copyHeaders_total (hs : GoMap (List String)) (acc : GoMap String)
    (hgood : ¬ ∃ e ∈ hs, BadHeader e) : ∃ out, copyHeaders hs acc = .ok out := by
  induction hs generalizing acc with
  | nil => exact ⟨acc, rfl⟩
  | cons e hs ih =>
    obtain ⟨h, v⟩ := e
    have hgood' : ¬ ∃ e ∈ hs, BadHeader e := fun ⟨e, he, hb⟩ =>
      hgood ⟨e, List.mem_cons_of_mem _ he, hb⟩
    by_cases hm : matchString h = true
    · obtain ⟨out, ho⟩ := ih acc hgood'
      exact ⟨out, by simp [copyHeaders, hm, ho]⟩
    · have hm' : matchString h = false := by simpa using hm
      cases v with
      | nil => exact absurd ⟨(h, []), List.mem_cons_self _ _, hm', rfl⟩ hgood
      | cons x xs =>
        obtain ⟨out, ho⟩ := ih (acc.set h x) hgood'
        exact ⟨out, by simp [copyHeaders, hm', ho]⟩

theorem collapseParams_ok (ps : GoMap (List String)) (acc : GoMap String)
    (hwf : GoMap.WF ps) (hne : ∀ e ∈ ps, e.2 ≠ []) :
    ∃ out, collapseParams ps acc = .ok out ∧ (acc.WF → out.WF) ∧
      ∀ k, out.get k = ((ps.get k).bind List.head?).orElse (fun _ => acc.get k) := by
  induction ps generalizing acc with
  | nil => exact ⟨acc, rfl, id, fun k => by simp [GoMap.get]⟩
  | cons e ps ih =>
    obtain ⟨h, v⟩ := e
    obtain ⟨hnot, hwf'⟩ := GoMap.wf_tail (h, v) ps hwf
    have hne' : ∀ e ∈ ps, e.2 ≠ [] := fun e he => hne e (List.mem_cons_of_mem _ he)
    have hrest : GoMap.get ps h = none := (GoMap.get_eq_none_iff ps h).2 hnot
    cases v with
    | nil => exact absurd rfl (hne (h, []) (List.mem_cons_self _ _))
    | cons x xs =>
      obtain ⟨out, ho, hw, hg⟩ := ih (acc.set h x) hwf' hne'
      refine ⟨out, by simp [collapseParams, ho], fun ha => hw (GoMap.wf_set acc h x ha), ?_⟩
      intro k
      rw [hg k, GoMap.get_set]
      by_cases hk : h = k
      · subst hk
        simp [GoMap.get, hrest]
      · simp [GoMap.get, hk]

theorem matchString_iff (k : String) :
    matchString k = true ↔ ∃ p ∈ excludedStarts, p.toList <+: k.toList := by
  simp [matchString, List.any_eq_true]

/-! ## The rounding of durations -/

theorem roundHalfEven_spec (z : ℚ) :
    |z - roundHalfEven z| < 1 / 2 ∨
      (|z - roundHalfEven z| = 1 / 2 ∧ roundHalfEven z % 2 = 0) := by
  have h1 : (⌊z⌋ : ℚ) ≤ z := Int.floor_le z
  have h2 : z < ⌊z⌋ + 1 := Int.lt_floor_add_one z
  unfold roundHalfEven
  split_ifs with ha hb hc
  · left
    rw [abs_lt]
    constructor <;> linarith
  · left
    push_cast
    rw [abs_lt]
    constructor <;> linarith
  · right
    have he : z - ⌊z⌋ = 1 / 2 := le_antisymm (not_lt.1 hb) (not_lt.1 ha)
    refine ⟨?_, hc⟩
    rw [he]
    norm_num
  · right
    have he : z - ⌊z⌋ = 1 / 2 := le_antisymm (not_lt.1 hb) (not_lt.1 ha)
    constructor
    · push_cast
      have : z - (⌊z⌋ + 1) = -(1 / 2) := by linarith
      rw [this]
      norm_num
    · omega

theorem roundHalfEven_unique (z : ℚ) (m : Int)
    (h : |z - m| < 1 / 2 ∨ (|z - m| = 1 / 2 ∧ m % 2 = 0)) : roundHalfEven z = m := by
  have hs := roundHalfEven_spec z
  generalize roundHalfEven z = r at hs ⊢
  have hd : |(r : ℚ) - m| ≤ 1 := by
    have e : (r : ℚ) - m = (z - m) - (z - r) := by ring
    have t := abs_sub (z - m) (z - r)
    rw [e]
    rcases h with h | ⟨h, -⟩ <;> rcases hs with hs | ⟨hs, -⟩ <;> linarith
  have hlt : |(r : ℚ) - m| < 1 ∨ (r % 2 = 0 ∧ m % 2 = 0) := by
    have e : (r : ℚ) - m = (z - m) - (z - r) := by ring
    have t := abs_sub (z - m) (z - r)
    rw [e]
    rcases h with h | ⟨h, hm⟩ <;> rcases hs with hs | ⟨hs, hr⟩
    · left; linarith
    · left; linarith
    · left; linarith
    · right; exact ⟨hr, hm⟩
  have hi : |r - m| ≤ 1 := by
    have : ((|r - m| : Int) : ℚ) ≤ 1 := by push_cast; exact hd
    exact_mod_cast this
  rcases hlt with hlt | ⟨hr, hm⟩
  · have : |r - m| < 1 := by
      have : ((|r - m| : Int) : ℚ) < 1 := by push_cast; exact hlt
      exact_mod_cast this
    rw [abs_lt] at this
    omega
  · rw [abs_le] at hi
    omega

theorem roundHalfEven_intCast (k : Int) : roundHalfEven (k : ℚ) = k :=
  roundHalfEven_unique _ k (by left; simp)

theorem roundHalfEven_neg (z : ℚ) : roundHalfEven (-z) = -roundHalfEven z := by
  apply roundHalfEven_unique
  have e : -z - ((-roundHalfEven z : Int) : ℚ) = -(z - roundHalfEven z) := by
    push_cast; ring
  rw [e, abs_neg]
  rcases roundHalfEven_spec z with h | ⟨h, hp⟩
  · left; exact h
  · right; exact ⟨h, by omega⟩

theorem roundHalfEven_abs_sub_le (z : ℚ) : |z - roundHalfEven z| ≤ 1 / 2 := by
  rcases roundHalfEven_spec z with h | ⟨h, -⟩
  · exact le_of_lt h
  · exact le_of_eq h

theorem roundHalfEven_mono {z w : ℚ} (h : z ≤ w) : roundHalfEven z ≤ roundHalfEven w := by
  by_contra hc
  have hlt : roundHalfEven w + 1 ≤ roundHalfEven z := by omega
  have hq : (roundHalfEven w : ℚ) + 1 ≤ roundHalfEven z := by exact_mod_cast hlt
  have hz := roundHalfEven_spec z
  have hw := roundHalfEven_spec w
  have az := abs_le.1 (roundHalfEven_abs_sub_le z)
  have aw := abs_le.1 (roundHalfEven_abs_sub_le w)
  -- both are at distance exactly 1/2 and the two results differ by one
  have e1 : (roundHalfEven z : ℚ) = roundHalfEven w + 1 := by linarith
  have e2 : z - roundHalfEven z = -(1 / 2) := by linarith
  have e3 : w - roundHalfEven w = 1 / 2 := by linarith
  have ei : roundHalfEven z = roundHalfEven w + 1 := by exact_mod_cast e1
  rcases hz with hz | ⟨-, pz⟩
  · rw [e2, abs_neg, abs_of_pos (by norm_num : (0:ℚ) < 1 / 2)] at hz
    exact lt_irrefl _ hz
  · rcases hw with hw | ⟨-, pw⟩
    · rw [e3, abs_of_pos (by norm_num : (0:ℚ) < 1 / 2)] at hw
      exact lt_irrefl _ hw
    · omega

theorem two_zpow_pos (e : Int) : (0 : ℚ) < 2 ^ e := zpow_pos (by norm_num) e

theorem roundHalfEven_two_zpow (k : Int) (hk : 0 ≤ k) :
    (roundHalfEven ((2 : ℚ) ^ k) : ℚ) = 2 ^ k := by
  obtain ⟨n, rfl⟩ := Int.eq_ofNat_of_zero_le hk
  have e : ((2 : ℚ) ^ (n : Int)) = (((2 : Int) ^ n : Int) : ℚ) := by
    push_cast
    rw [zpow_natCast]
  rw [e, roundHalfEven_intCast]

theorem binaryExponent_neg (x : ℚ) : binaryExponent (-x) = binaryExponent x := by
  simp [binaryExponent]

theorem toFloat64_neg (x : ℚ) : toFloat64 (-x) = -toFloat64 x := by
  unfold toFloat64
  rw [binaryExponent_neg, neg_div, roundHalfEven_neg]
  push_cast
  ring

theorem roundHalfEven_zero : roundHalfEven (0 : ℚ) = 0 := by
  have := roundHalfEven_intCast 0
  simpa using this

theorem toFloat64_zero : toFloat64 0 = 0 := by
  unfold toFloat64
  rw [zero_div, roundHalfEven_zero]
  simp

theorem toFloat64_nonneg {x : ℚ} (hx : 0 ≤ x) : 0 ≤ toFloat64 x := by
  unfold toFloat64
  have hp := two_zpow_pos (binaryExponent x)
  have hz : (0 : ℚ) ≤ x / 2 ^ binaryExponent x := div_nonneg hx (le_of_lt hp)
  have hr : (0 : Int) ≤ roundHalfEven (x / 2 ^ binaryExponent x) := by
    have h0 : roundHalfEven (0 : ℚ) = 0 := by
      have := roundHalfEven_intCast 0
      simpa using this
    have := roundHalfEven_mono hz
    rw [h0] at this
    exact this
  have hrq : (0 : ℚ) ≤ (roundHalfEven (x / 2 ^ binaryExponent x) : ℚ) := by exact_mod_cast hr
  exact mul_nonneg hrq (le_of_lt hp)

theorem binaryExponent_mono {x y : ℚ} (hx : 0 < x) (h : x ≤ y) :
    binaryExponent x ≤ binaryExponent y := by
  unfold binaryExponent
  rw [abs_of_pos hx, abs_of_pos (lt_of_lt_of_le hx h)]
  have := Int.log_mono_right (b := 2) hx h
  exact max_le_max (by omega) le_rfl

theorem toFloat64_mono_pos {x y : ℚ} (hx : 0 < x) (h : x ≤ y) :
    toFloat64 x ≤ toFloat64 y := by
  have hy : 0 < y := lt_of_lt_of_le hx h
  have he := binaryExponent_mono hx h
  rcases eq_or_lt_of_le he with heq | hlt
  · unfold toFloat64
    rw [← heq]
    have hp := two_zpow_pos (binaryExponent x)
    have hz : x / 2 ^ binaryExponent x ≤ y / 2 ^ binaryExponent x :=
      div_le_div_of_nonneg_right h (le_of_lt hp)
    have hr : (roundHalfEven (x / 2 ^ binaryExponent x) : ℚ)
        ≤ roundHalfEven (y / 2 ^ binaryExponent x) := by
      exact_mod_cast roundHalfEven_mono hz
    exact mul_le_mul_of_nonneg_right hr (le_of_lt hp)
  · -- the exponents differ: a power of two lies between the two numbers
    have hey : binaryExponent y = Int.log 2 y - 52 := by
      have hb : -1074 ≤ binaryExponent x := by unfold binaryExponent; exact le_max_right _ _
      have hy' : binaryExponent y = max (Int.log 2 y - 52) (-1074) := by
        unfold binaryExponent; rw [abs_of_pos hy]
      rw [hy']
      apply max_eq_left
      by_contra hc
      have : max (Int.log 2 y - 52) (-1074) = -1074 := max_eq_right (by omega)
      rw [hy', this] at hlt
      omega
    have hex : Int.log 2 x - 52 ≤ binaryExponent x := by
      unfold binaryExponent; rw [abs_of_pos hx]; exact le_max_left _ _
    have hL : Int.log 2 x + 1 ≤ Int.log 2 y := by omega
    have hxlt : x < 2 ^ (Int.log 2 x + 1) := by
      have := Int.lt_zpow_succ_log_self (b := 2) (by norm_num) x
      simpa using this
    have hyge : (2 : ℚ) ^ Int.log 2 y ≤ y := by
      have := Int.zpow_log_le_self (b := 2) (r := y) (by norm_num) hy
      simpa using this
    have hxB : x ≤ 2 ^ Int.log 2 y :=
      le_trans (le_of_lt hxlt) (zpow_le_zpow_right₀ (by norm_num) hL)
    have hpx := two_zpow_pos (binaryExponent x)
    have hpy := two_zpow_pos (binaryExponent y)
    -- the lower number rounds to at most the power of two
    have h1 : toFloat64 x ≤ 2 ^ Int.log 2 y := by
      unfold toFloat64
      have hk : 0 ≤ Int.log 2 y - binaryExponent x := by omega
      have hz : x / 2 ^ binaryExponent x ≤ 2 ^ (Int.log 2 y - binaryExponent x) := by
        rw [zpow_sub₀ (by norm_num : (2 : ℚ) ≠ 0)]
        exact div_le_div_of_nonneg_right hxB (le_of_lt hpx)
      have hr : (roundHalfEven (x / 2 ^ binaryExponent x) : ℚ)
          ≤ 2 ^ (Int.log 2 y - binaryExponent x) := by
        rw [← roundHalfEven_two_zpow _ hk]
        exact_mod_cast roundHalfEven_mono hz
      calc (roundHalfEven (x / 2 ^ binaryExponent x) : ℚ) * 2 ^ binaryExponent x
          ≤ 2 ^ (Int.log 2 y - binaryExponent x) * 2 ^ binaryExponent x :=
            mul_le_mul_of_nonneg_right hr (le_of_lt hpx)
        _ = 2 ^ Int.log 2 y := by
            rw [← zpow_add₀ (by norm_num : (2 : ℚ) ≠ 0)]
            congr 1
            ring
    -- the upper number rounds to at least the power of two
    have h2 : (2 : ℚ) ^ Int.log 2 y ≤ toFloat64 y := by
      unfold toFloat64
      rw [hey]
      have hp := two_zpow_pos (Int.log 2 y - 52)
      have hz : (2 : ℚ) ^ (52 : Int) ≤ y / 2 ^ (Int.log 2 y - 52) := by
        rw [le_div_iff₀ hp, ← zpow_add₀ (by norm_num : (2 : ℚ) ≠ 0)]
        have : (52 : Int) + (Int.log 2 y - 52) = Int.log 2 y := by ring
        rw [this]
        exact hyge
      have hr : (2 : ℚ) ^ (52 : Int) ≤ (roundHalfEven (y / 2 ^ (Int.log 2 y - 52)) : ℚ) := by
        rw [← roundHalfEven_two_zpow 52 (by norm_num)]
        exact_mod_cast roundHalfEven_mono hz
      calc (2 : ℚ) ^ Int.log 2 y = 2 ^ (52 : Int) * 2 ^ (Int.log 2 y - 52) := by
            rw [← zpow_add₀ (by norm_num : (2 : ℚ) ≠ 0)]
            congr 1
            ring
        _ ≤ (roundHalfEven (y / 2 ^ (Int.log 2 y - 52)) : ℚ) * 2 ^ (Int.log 2 y - 52) :=
            mul_le_mul_of_nonneg_right hr (le_of_lt hp)
    exact le_trans h1 h2

theorem toFloat64_mono : Monotone toFloat64 := by
  intro x y h
  rcases lt_trichotomy x 0 with hx | hx | hx
  · rcases lt_trichotomy y 0 with hy | hy | hy
    · have := toFloat64_mono_pos (neg_pos.2 hy) (neg_le_neg h)
      rw [toFloat64_neg, toFloat64_neg] at this
      exact neg_le_neg_iff.1 this
    · subst hy
      have := toFloat64_nonneg (le_of_lt (neg_pos.2 hx))
      rw [toFloat64_neg] at this
      rw [toFloat64_zero]
      linarith
    · have h1 := toFloat64_nonneg (le_of_lt (neg_pos.2 hx))
      rw [toFloat64_neg] at h1
      have h2 := toFloat64_nonneg (le_of_lt hy)
      linarith
  · subst hx
    rw [toFloat64_zero]
    exact toFloat64_nonneg h
  · exact toFloat64_mono_pos hx h

theorem formatFixed4_mono : Monotone formatFixed4 := by
  intro a b h
  unfold formatFixed4
  have hz : a * 10000 ≤ b * 10000 := mul_le_mul_of_nonneg_right h (by norm_num)
  have hr : (roundHalfEven (a * 10000) : ℚ) ≤ roundHalfEven (b * 10000) := by
    exact_mod_cast roundHalfEven_mono hz
  exact div_le_div_of_nonneg_right hr (by norm_num)

theorem roundedMillis_mono : Monotone roundedMillis := by
  intro a b h
  unfold roundedMillis
  apply toFloat64_mono
  apply formatFixed4_mono
  apply toFloat64_mono
  apply div_le_div_of_nonneg_right _ (by norm_num)
  apply toFloat64_mono
  exact_mod_cast h

theorem roundedMillis_nonneg {n : Int} (h : 0 ≤ n) : 0 ≤ roundedMillis n := by
  have h0 : roundedMillis 0 = 0 := by
    simp [roundedMillis, formatFixed4, toFloat64_zero, roundHalfEven_zero]
  rw [← h0]
  exact roundedMillis_mono h

theorem log_two_eq {x : ℚ} (hx : 0 < x) (L : Int) (h1 : (2 : ℚ) ^ L ≤ x)
    (h2 : x < 2 ^ (L + 1)) : Int.log 2 x = L := by
  have a : L ≤ Int.log 2 x := by
    have := (Int.zpow_le_iff_le_log (b := 2) (by norm_num) (x := L) hx).1 (by simpa using h1)
    exact this
  have b : Int.log 2 x < L + 1 := by
    have := (Int.lt_zpow_iff_log_lt (b := 2) (by norm_num) (x := L + 1) hx).1
      (by simpa using h2)
    exact this
  omega

theorem toFloat64_eq_of {x : ℚ} (hx : 0 < x) (L m : Int) (h1 : (2 : ℚ) ^ L ≤ x)
    (h2 : x < 2 ^ (L + 1)) (h3 : -1022 ≤ L) (hm : |x / 2 ^ (L - 52) - m| < 1 / 2) :
    toFloat64 x = m * 2 ^ (L - 52) := by
  have he : binaryExponent x = L - 52 := by
    unfold binaryExponent
    rw [abs_of_pos hx, log_two_eq hx L h1 h2]
    exact max_eq_left (by omega)
  unfold toFloat64
  rw [he, roundHalfEven_unique _ m (Or.inl hm)]

theorem toFloat64_abs_sub_le (x : ℚ) : |toFloat64 x - x| ≤ 2 ^ binaryExponent x / 2 := by
  have hp := two_zpow_pos (binaryExponent x)
  have e : toFloat64 x - x
      = -(x / 2 ^ binaryExponent x - roundHalfEven (x / 2 ^ binaryExponent x))
          * 2 ^ binaryExponent x := by
    unfold toFloat64
    have hc : x / 2 ^ binaryExponent x * 2 ^ binaryExponent x = x :=
      div_mul_cancel₀ x (ne_of_gt hp)
    linear_combination hc
  rw [e, abs_mul, abs_neg, abs_of_pos hp]
  have := roundHalfEven_abs_sub_le (x / 2 ^ binaryExponent x)
  calc |x / 2 ^ binaryExponent x - ↑(roundHalfEven (x / 2 ^ binaryExponent x))|
        * 2 ^ binaryExponent x
      ≤ 1 / 2 * 2 ^ binaryExponent x := mul_le_mul_of_nonneg_right this (le_of_lt hp)
    _ = 2 ^ binaryExponent x / 2 := by ring

theorem binaryExponent_le {x : ℚ} (hx : 0 < x) (B : Int) (hB : -1074 ≤ B - 53)
    (h : x < 2 ^ B) : binaryExponent x ≤ B - 53 := by
  unfold binaryExponent
  rw [abs_of_pos hx]
  have := (Int.lt_zpow_iff_log_lt (b := 2) (by norm_num) (x := B) hx).1 (by simpa using h)
  exact max_le (by omega) hB

theorem toFloat64_intCast {n : Int} (h0 : 0 ≤ n) (h : n < 2 ^ 53) : toFloat64 (n : ℚ) = n := by
  rcases eq_or_lt_of_le h0 with h0 | hpos
  · subst h0; simpa using toFloat64_zero
  have hx : (0 : ℚ) < n := by exact_mod_cast hpos
  have hlt : (n : ℚ) < 2 ^ (53 : Int) := by
    have h' : (n : ℚ) < ((2 ^ 53 : Int) : ℚ) := by exact_mod_cast h
    norm_num at h' ⊢
    exact h'
  have he := binaryExponent_le hx 53 (by norm_num) hlt
  obtain ⟨j, hj⟩ : ∃ j : ℕ, binaryExponent (n : ℚ) = -(j : Int) :=
    ⟨(-binaryExponent (n : ℚ)).toNat, by omega⟩
  unfold toFloat64
  rw [hj]
  have e : (n : ℚ) / 2 ^ (-(j : Int)) = ((n * 2 ^ j : Int) : ℚ) := by
    rw [zpow_neg, zpow_natCast]
    push_cast
    field_simp
  rw [e, roundHalfEven_intCast, zpow_neg, zpow_natCast]
  push_cast
  field_simp

/-- For an elapsed count below `2 ^ 53` the text that `FormatFloat` writes is
`n / 1000000` rounded to 4 decimal places. -/
theorem formatted_within_half {n : Int} (h0 : 0 ≤ n) (h : n < 2 ^ 53) :
    ∃ K : Int, roundedMillis n = toFloat64 ((K : ℚ) / 10000) ∧
      |(K : ℚ) - (n : ℚ) / 100| ≤ 1 / 2 := by
  refine ⟨roundHalfEven (toFloat64 (toFloat64 (n : ℚ) / 1000000) * 10000), rfl, ?_⟩
  rw [toFloat64_intCast h0 h]
  set l := toFloat64 ((n : ℚ) / 1000000) with hl
  set K := roundHalfEven (l * 10000) with hK
  -- the quotient is within 2^-20 of n / 10^6
  have herr : |l - (n : ℚ) / 1000000| ≤ 2 ^ (-20 : Int) := by
    rcases eq_or_lt_of_le h0 with h0' | hpos
    · subst h0'
      have : l = 0 := by rw [hl]; simpa using toFloat64_zero
      rw [this]
      norm_num
    · have hx : (0 : ℚ) < (n : ℚ) / 1000000 := by
        have : (0 : ℚ) < n := by exact_mod_cast hpos
        positivity
      have hn : (n : ℚ) < 2 ^ 53 := by exact_mod_cast h
      have hlt : (n : ℚ) / 1000000 < 2 ^ (34 : Int) := by
        rw [div_lt_iff₀ (by norm_num)]
        norm_num at hn ⊢
        linarith
      have he := binaryExponent_le hx 34 (by norm_num) hlt
      have hb := toFloat64_abs_sub_le ((n : ℚ) / 1000000)
      have hz : (2 : ℚ) ^ binaryExponent ((n : ℚ) / 1000000) ≤ 2 ^ (-19 : Int) :=
        zpow_le_zpow_right₀ (by norm_num) (by omega)
      calc |l - (n : ℚ) / 1000000| ≤ 2 ^ binaryExponent ((n : ℚ) / 1000000) / 2 := hb
        _ ≤ 2 ^ (-19 : Int) / 2 := by linarith
        _ = 2 ^ (-20 : Int) := by norm_num
  have hw : |l * 10000 - (n : ℚ) / 100| < 1 / 100 := by
    have e : l * 10000 - (n : ℚ) / 100 = (l - (n : ℚ) / 1000000) * 10000 := by ring
    rw [e, abs_mul]
    have : |(10000 : ℚ)| = 10000 := by norm_num
    rw [this]
    have : (2 : ℚ) ^ (-20 : Int) * 10000 < 1 / 100 := by norm_num
    nlinarith [abs_nonneg (l - (n : ℚ) / 1000000)]
  have hr := roundHalfEven_abs_sub_le (l * 10000)
  rw [← hK] at hr
  -- so the integer 100 K - n is below 51 in absolute value, hence at most 50
  have hlt : |(K : ℚ) - (n : ℚ) / 100| < 51 / 100 := by
    have e : (K : ℚ) - (n : ℚ) / 100 = -(l * 10000 - K) + (l * 10000 - (n : ℚ) / 100) := by
      ring
    rw [e]
    have t := abs_add (-(l * 10000 - (K : ℚ))) (l * 10000 - (n : ℚ) / 100)
    rw [abs_neg] at t
    linarith
  have hd : |100 * K - n| ≤ 50 := by
    have : ((|100 * K - n| : Int) : ℚ) < 51 := by
      push_cast
      have e : (100 : ℚ) * K - n = ((K : ℚ) - (n : ℚ) / 100) * 100 := by ring
      rw [e, abs_mul]
      have : |(100 : ℚ)| = 100 := by norm_num
      rw [this]
      linarith
    have : |100 * K - n| < 51 := by exact_mod_cast this
    omega
  have hq : ((|100 * K - n| : Int) : ℚ) ≤ 50 := by exact_mod_cast hd
  push_cast at hq
  have e : (K : ℚ) - (n : ℚ) / 100 = ((100 : ℚ) * K - n) / 100 := by ring
  rw [e, abs_div]
  have : |(100 : ℚ)| = 100 := by norm_num
  rw [this]
  linarith

/-- Parsing the 4-decimal text of an elapsed count below `2 ^ 53` moves the
value by at most `2 ^ (-20)`. -/
theorem parse_error_le {n K : Int} (h0 : 0 ≤ n) (h : n < 2 ^ 53)
    (hd : |(K : ℚ) - (n : ℚ) / 100| ≤ 1 / 2) :
    |toFloat64 ((K : ℚ) / 10000) - (K : ℚ) / 10000| ≤ 1 / 1048576 := by
  have hn0 : (0 : ℚ) ≤ n := by exact_mod_cast h0
  have hn : (n : ℚ) < 2 ^ 53 := by exact_mod_cast h
  rw [abs_le] at hd
  have hK0 : 0 ≤ K := by
    have : (-1 : ℚ) < K := by linarith
    have : -1 < K := by exact_mod_cast this
    omega
  rcases eq_or_lt_of_le hK0 with hz | hpos
  · subst hz
    simp [toFloat64_zero]
  · have hKq : (0 : ℚ) < K := by exact_mod_cast hpos
    have hx : (0 : ℚ) < (K : ℚ) / 10000 := by positivity
    have hlt : (K : ℚ) / 10000 < 2 ^ (34 : Int) := by
      rw [div_lt_iff₀ (by norm_num)]
      norm_num at hn ⊢
      linarith
    have he := binaryExponent_le hx 34 (by norm_num) hlt
    have hb := toFloat64_abs_sub_le ((K : ℚ) / 10000)
    have hz : (2 : ℚ) ^ binaryExponent ((K : ℚ) / 10000) ≤ 2 ^ (-19 : Int) :=
      zpow_le_zpow_right₀ (by norm_num) (by omega)
    calc |toFloat64 ((K : ℚ) / 10000) - (K : ℚ) / 10000|
        ≤ 2 ^ binaryExponent ((K : ℚ) / 10000) / 2 := hb
      _ ≤ 2 ^ (-19 : Int) / 2 := by linarith
      _ = 1 / 1048576 := by norm_num

theorem roundedMillis_maxDuration :
    roundedMillis 9223372036854775807 = 4722366482869645 / 512 := by
  have s1 : toFloat64 (9223372036854775807 : ℚ) = 9223372036854775808 := by
    rw [toFloat64_eq_of (x := 9223372036854775807) (by norm_num) 62 9007199254740992
      (by norm_num) (by norm_num) (by norm_num) (by rw [abs_lt]; constructor <;> norm_num)]
    norm_num
  have s2 : toFloat64 ((9223372036854775808 : ℚ) / 1000000) = 4722366482869645 / 512 := by
    rw [toFloat64_eq_of (x := 9223372036854775808 / 1000000) (by norm_num) 43
      4722366482869645 (by norm_num) (by norm_num) (by norm_num)
      (by rw [abs_lt]; constructor <;> norm_num)]
    norm_num
  have s3 : formatFixed4 (4722366482869645 / 512) = 92233720368547754 / 10000 := by
    unfold formatFixed4
    rw [roundHalfEven_unique _ 92233720368547754
      (Or.inl (by rw [abs_lt]; constructor <;> norm_num))]
    norm_num
  have s4 : toFloat64 ((92233720368547754 : ℚ) / 10000) = 4722366482869645 / 512 := by
    rw [toFloat64_eq_of (x := 92233720368547754 / 10000) (by norm_num) 43
      4722366482869645 (by norm_num) (by norm_num) (by norm_num)
      (by rw [abs_lt]; constructor <;> norm_num)]
    norm_num
  unfold roundedMillis
  push_cast
  rw [s1, s2, s3, s4]

theorem roundedMillis_hundred :
    roundedMillis 100 = 7378697629483821 / 73786976294838206464 := by
  have s1 : toFloat64 (100 : ℚ) = 100 := by
    have := toFloat64_intCast (n := 100) (by norm_num) (by norm_num)
    simpa using this
  have s2 : toFloat64 ((100 : ℚ) / 1000000) = 7378697629483821 / 73786976294838206464 := by
    rw [toFloat64_eq_of (x := 100 / 1000000) (by norm_num) (-14)
      7378697629483821 (by norm_num) (by norm_num) (by norm_num)
      (by rw [abs_lt]; constructor <;> norm_num)]
    norm_num
  have s3 : formatFixed4 (7378697629483821 / 73786976294838206464) = 1 / 10000 := by
    unfold formatFixed4
    rw [roundHalfEven_unique _ 1 (Or.inl (by rw [abs_lt]; constructor <;> norm_num))]
    norm_num
  have s4 : toFloat64 ((1 : ℚ) / 10000) = 7378697629483821 / 73786976294838206464 := by
    rw [toFloat64_eq_of (x := 1 / 10000) (by norm_num) (-14)
      7378697629483821 (by norm_num) (by norm_num) (by norm_num)
      (by rw [abs_lt]; constructor <;> norm_num)]
    norm_num
  unfold roundedMillis
  push_cast
  rw [s1, s2, s3, s4]

theorem roundedMillis_small {n : Int} (h0 : 0 ≤ n) (h : n < 50) : roundedMillis n = 0 := by
  obtain ⟨K, hK, hd⟩ := formatted_within_half h0 (lt_trans h (by norm_num))
  have hn : (n : ℚ) < 50 := by exact_mod_cast h
  have hn0 : (0 : ℚ) ≤ n := by exact_mod_cast h0
  rw [abs_le] at hd
  have h1 : (K : ℚ) < 1 := by linarith
  have h2 : (-1 : ℚ) < K := by linarith
  have hK0 : K = 0 := by
    have a : K < 1 := by exact_mod_cast h1
    have b : -1 < K := by exact_mod_cast h2
    omega
  rw [hK, hK0]
  simpa using toFloat64_zero
/-! ## The dispatcher -/

theorem foldl_step_records (es : List Event) (s : Dispatcher) :
    (es.foldl step s).sent.flatten ++ (es.foldl step s).reqs
      = s.sent.flatten ++ s.reqs ++ received es := by
  induction es generalizing s with
  | nil => simp [received]
  | cons e es ih =>
    rw [List.foldl_cons, ih]
    cases e with
    | tick => simp [step, received]
    | receive r =>
      by_cases h : MaxQueueSize < s.reqs.length + 1
      · simp [step, received, h]
      · simp [step, received, h]

theorem step_bounded (s : Dispatcher) (e : Event) (h : s.Bounded) : (step s e).Bounded := by
  obtain ⟨h1, h2⟩ := h
  cases e with
  | tick =>
    refine ⟨by simp [step], ?_⟩
    intro b hb
    simp only [step, List.mem_append, List.mem_singleton] at hb
    rcases hb with hb | hb
    · exact h2 b hb
    · subst hb; omega
  | receive r =>
    by_cases hl : MaxQueueSize < s.reqs.length + 1
    · refine ⟨by simp [step, hl], ?_⟩
      intro b hb
      simp only [step, List.length_append, List.length_singleton, gt_iff_lt, hl, if_true,
        List.mem_append, List.mem_singleton] at hb
      rcases hb with hb | hb
      · exact h2 b hb
      · subst hb
        simp only [List.length_append, List.length_singleton]
        omega
    · refine ⟨?_, ?_⟩
      · simp only [step, List.length_append, List.length_singleton, gt_iff_lt, hl, if_false]
        omega
      · intro b hb
        simp only [step, List.length_append, List.length_singleton, gt_iff_lt, hl,
          if_false] at hb
        exact h2 b hb

theorem foldl_step_bounded (es : List Event) (s : Dispatcher) (h : s.Bounded) :
    (es.foldl step s).Bounded := by
  induction es generalizing s with
  | nil => simpa using h
  | cons e es ih => exact ih _ (step_bounded s e h)

/-- C3: over every finite sequence of ticks and receives, the batches handed
to `sendQueue`, concatenated in hand-off order and followed by the current
batch, are exactly the received records in arrival order: flushing loses,
repeats and reorders nothing. -/
theorem processQueue_keeps_records (es : List Event) :
    (processQueue es).sent.flatten ++ (processQueue es).reqs = received es := by
  have h := foldl_step_records es Dispatcher.initial
  simpa [processQueue, Dispatcher.initial] using h

/-- C4: a tick hands the current batch off and empties it whatever its size;
a receive appends the record and hands the batch off exactly when its length
after the append exceeds `MaxQueueSize = 10` (so on the eleventh record),
otherwise hands nothing off; hence between turns the current batch holds at
most 10 records and every batch handed off at most 11. -/
theorem processQueue_flush_policy :
    MaxQueueSize = 10 ∧
    (∀ s : Dispatcher, step s Event.tick = { reqs := [], sent := s.sent ++ [s.reqs] }) ∧
    (∀ (s : Dispatcher) (r : Request),
      step s (Event.receive r) =
        if 10 < s.reqs.length + 1 then { reqs := [], sent := s.sent ++ [s.reqs ++ [r]] }
        else { reqs := s.reqs ++ [r], sent := s.sent }) ∧
    (∀ (s : Dispatcher) (r : Request),
      (step s (Event.receive r)).sent ≠ s.sent ↔ 10 < (s.reqs ++ [r]).length) ∧
    (∀ (s : Dispatcher) (r : Request), s.reqs.length = 10 →
      step s (Event.receive r) = { reqs := [], sent := s.sent ++ [s.reqs ++ [r]] } ∧
      (s.reqs ++ [r]).length = 11) ∧
    (∀ es : List Event,
      (processQueue es).reqs.length ≤ 10 ∧ ∀ b ∈ (processQueue es).sent, b.length ≤ 11) := by
  refine ⟨rfl, fun s => rfl, ?_, ?_, ?_, ?_⟩
  · intro s r
    simp [step, MaxQueueSize]
  · intro s r
    by_cases h : 10 < s.reqs.length + 1
    · simp [step, MaxQueueSize, h]
    · simp [step, MaxQueueSize, h]
  · intro s r h
    simp [step, MaxQueueSize, h]
  · intro es
    have h := foldl_step_bounded es Dispatcher.initial
      ⟨by simp [Dispatcher.initial], by simp [Dispatcher.initial]⟩
    exact h
/-! ## NewRequest and Request.Stop -/

theorem GoMap.mem_of_get {β : Type} (m : GoMap β) (k : String) (v : β)
    (h : GoMap.get m k = some v) : (k, v) ∈ m := by
  induction m with
  | nil => simp [GoMap.get] at h
  | cons e m ih =>
    obtain ⟨a, b⟩ := e
    by_cases hk : a = k
    · subst hk
      simp only [GoMap.get, if_true, Option.some.injEq] at h
      subst h
      exact List.mem_cons_self _ _
    · simp only [GoMap.get, hk, if_false] at h
      exact List.mem_cons_of_mem _ (ih h)

theorem badHeader_iff (e : String × List String) :
    BadHeader e ↔
      (¬ ∃ p ∈ ["X-", "Cookie", "Authorization", "If-"], p.toList <+: e.1.toList) ∧ e.2 = [] := by
  have h := matchString_iff e.1
  simp only [excludedStarts] at h
  rw [← h]
  simp [BadHeader]

theorem newRequest_fields (c : Config) (now : Int) (hostname uri endpoint method : String)
    (params : GoMap (List String)) (r : Request)
    (hr : NewRequest c now hostname uri endpoint method params = .ok r) :
    r.Headers = [] ∧ collapseParams params [] = .ok r.Params := by
  unfold NewRequest at hr
  cases hc : collapseParams params [] with
  | error p => simp [hc] at hr
  | ok ps =>
    simp only [hc, Except.ok.injEq] at hr
    subst hr
    exact ⟨rfl, rfl⟩

theorem stop_of_copyHeaders (roundMs : Int → Float64) (now : Int) (r : Request)
    (root : Tracer) (reqid hop : String) (status : Int) (headers : GoMap (List String))
    (queue : List Request) (hs : GoMap String)
    (h : copyHeaders headers r.Headers = .ok hs) :
    ∃ r', Request.Stop roundMs now r (some root) reqid hop status headers queue
        = StopResult.done r' (queue ++ [r']) ∧
      r'.Headers = hs ∧ r'.RequestID = reqid ∧ r'.HopCount = hop ∧ r'.Status = status ∧
      r'.Events = root ∧ r'.Method = r.Method ∧ r'.Endpoint = r.Endpoint ∧ r'.URI = r.URI ∧
      r'.Hostname = r.Hostname ∧ r'.App = r.App ∧ r'.Env = r.Env ∧
      r'.StartedAt = r.StartedAt ∧ r'.Params = r.Params ∧ r'.StoppedAt = now ∧
      r'.Duration = roundMs (timeSub now r.StartedAt) := by
  simp only [Request.Stop, h]
  exact ⟨_, rfl, rfl, rfl, rfl, rfl, rfl, rfl, rfl, rfl, rfl, rfl, rfl, rfl, rfl, rfl, rfl⟩

/-- C1: for a record made by `NewRequest` and a header map (entries with
distinct names, visited in any order) all of whose value lists are
non-empty, `Request.Stop` returns normally and the record's
`Headers` then holds exactly the names that do not begin (case-sensitively)
with `X-`, `Cookie`, `Authorization` or `If-`, each with the first value of
its list; the headers `X-Trace: 1`, `Cookie: a=b`, `Content-Type: json` leave
exactly `Content-Type: json`. -/
theorem stop_filters_headers (roundMs : Int → Float64) (c : Config) (t0 now : Int)
    (hostname uri endpoint method : String) (params : GoMap (List String)) (r : Request)
    (hr : NewRequest c t0 hostname uri endpoint method params = .ok r)
    (root : Tracer) (reqid hop : String) (status : Int) (headers : GoMap (List String))
    (hwf : headers.WF) (hne : ∀ e ∈ headers, e.2 ≠ []) (queue : List Request) :
    (∃ r', Request.Stop roundMs now r (some root) reqid hop status headers queue
          = StopResult.done r' (queue ++ [r']) ∧
        r'.Headers.WF ∧
        (∀ k, k ∈ r'.Headers.keys ↔
          k ∈ headers.keys ∧
            ¬ ∃ p ∈ ["X-", "Cookie", "Authorization", "If-"], p.toList <+: k.toList) ∧
        (∀ k v, r'.Headers.get k = some v ↔
          (¬ ∃ p ∈ ["X-", "Cookie", "Authorization", "If-"], p.toList <+: k.toList) ∧
            ∃ vs, headers.get k = some (v :: vs))) ∧
    (∃ r', Request.Stop roundMs now r (some root) reqid hop status
          [("X-Trace", ["1"]), ("Cookie", ["a=b"]), ("Content-Type", ["json"])] queue
          = StopResult.done r' (queue ++ [r']) ∧
        r'.Headers = [("Content-Type", "json")]) := by
  obtain ⟨hH, -⟩ := newRequest_fields c t0 hostname uri endpoint method params r hr
  have hpre : ∀ k, (¬ ∃ p ∈ ["X-", "Cookie", "Authorization", "If-"], p.toList <+: k.toList)
      ↔ matchString k = false := by
    intro k
    have h := matchString_iff k
    simp only [excludedStarts] at h
    rw [← h]
    simp
  constructor
  · obtain ⟨out, ho, hw, hg⟩ := copyHeaders_ok headers r.Headers hwf
      (fun e he hb => hne e he hb.2)
    obtain ⟨r', hs, hh, -⟩ :=
      stop_of_copyHeaders roundMs now r root reqid hop status headers queue out ho
    have hget : ∀ k v, GoMap.get out k = some v ↔
        matchString k = false ∧ ∃ vs, GoMap.get headers k = some (v :: vs) := by
      intro k v
      rw [hg k, hH]
      cases hm : matchString k with
      | true => simp [keptHeader, hm, GoMap.get]
      | false =>
        cases hk : GoMap.get headers k with
        | none => simp [keptHeader, hm, hk, GoMap.get]
        | some l =>
          cases l with
          | nil => simp [keptHeader, hm, hk, GoMap.get]
          | cons x xs => simp [keptHeader, hm, hk, GoMap.get]
    refine ⟨r', hs, ?_, ?_, ?_⟩
    · rw [hh]
      exact hw (by rw [hH]; simp [GoMap.WF, GoMap.keys])
    · intro k
      rw [hh, hpre k, GoMap.mem_keys_iff, GoMap.mem_keys_iff, Option.isSome_iff_exists,
        Option.isSome_iff_exists]
      constructor
      · rintro ⟨v, hv⟩
        obtain ⟨hm, vs, hvs⟩ := (hget k v).1 hv
        exact ⟨⟨_, hvs⟩, hm⟩
      · rintro ⟨⟨l, hl⟩, hm⟩
        cases l with
        | nil => exact absurd rfl (hne (k, []) (GoMap.mem_of_get headers k [] hl))
        | cons x xs => exact ⟨x, (hget k x).2 ⟨hm, xs, hl⟩⟩
    · intro k v
      rw [hh, hpre k]
      exact hget k v
  · have hc : copyHeaders [("X-Trace", ["1"]), ("Cookie", ["a=b"]), ("Content-Type", ["json"])]
        r.Headers = .ok [("Content-Type", "json")] := by
      rw [hH]; rfl
    obtain ⟨r', hs, hh, -⟩ := stop_of_copyHeaders roundMs now r root reqid hop status
      [("X-Trace", ["1"]), ("Cookie", ["a=b"]), ("Content-Type", ["json"])] queue _ hc
    exact ⟨r', hs, hh⟩

/-- C1 at a concrete call: a record made by `NewRequest` for `GET /users`,
stopped with the headers `If-None-Match: w` and `Accept: a, b`. -/
theorem stop_filters_headers_witness :
    NewRequest Config.initial 5 "h" "/users" "/users" "GET" [] = .ok sampleRecord ∧
    GoMap.WF [("If-None-Match", ["w"]), ("Accept", ["a", "b"])] ∧
    (∀ e ∈ [("If-None-Match", ["w"]), ("Accept", ["a", "b"])], e.2 ≠ []) ∧
    ((∃ r', Request.Stop (fun n => (n : ℚ)) 9 sampleRecord (some Tracer.zero) "id" "1" 200
          [("If-None-Match", ["w"]), ("Accept", ["a", "b"])] []
          = StopResult.done r' ([] ++ [r']) ∧
        r'.Headers.WF ∧
        (∀ k, k ∈ r'.Headers.keys ↔
          k ∈ GoMap.keys [("If-None-Match", ["w"]), ("Accept", ["a", "b"])] ∧
            ¬ ∃ p ∈ ["X-", "Cookie", "Authorization", "If-"], p.toList <+: k.toList) ∧
        (∀ k v, r'.Headers.get k = some v ↔
          (¬ ∃ p ∈ ["X-", "Cookie", "Authorization", "If-"], p.toList <+: k.toList) ∧
            ∃ vs, GoMap.get [("If-None-Match", ["w"]), ("Accept", ["a", "b"])] k
              = some (v :: vs))) ∧
      (∃ r', Request.Stop (fun n => (n : ℚ)) 9 sampleRecord (some Tracer.zero) "id" "1" 200
            [("X-Trace", ["1"]), ("Cookie", ["a=b"]), ("Content-Type", ["json"])] []
            = StopResult.done r' ([] ++ [r']) ∧
          r'.Headers = [("Content-Type", "json")])) :=
  ⟨rfl, by decide, by decide,
    stop_filters_headers (fun n => (n : ℚ)) Config.initial 5 9 "h" "/users" "/users" "GET" []
      sampleRecord rfl Tracer.zero "id" "1" 200
      [("If-None-Match", ["w"]), ("Accept", ["a", "b"])]
      (by decide) (by decide) []⟩

/-- C2: for a query-parameter map (entries with distinct keys, visited in any
order) in which every key lists at least one value, `NewRequest` returns a
record whose `Params` has exactly the keys of the map, each with the first
value of its list, and whose `Headers` is empty; the parameters `q = a, b`
give `Params` `q = a`. -/
theorem newRequest_collapses_params (c : Config) (now : Int)
    (hostname uri endpoint method : String) (params : GoMap (List String))
    (hwf : params.WF) (hne : ∀ e ∈ params, e.2 ≠ []) :
    (∃ r, NewRequest c now hostname uri endpoint method params = .ok r ∧
        r.Params.WF ∧
        (∀ k, k ∈ r.Params.keys ↔ k ∈ params.keys) ∧
        (∀ k v, r.Params.get k = some v ↔ ∃ vs, params.get k = some (v :: vs)) ∧
        r.Headers = []) ∧
    (∃ r, NewRequest c now hostname uri endpoint method [("q", ["a", "b"])] = .ok r ∧
        r.Params = [("q", "a")] ∧ r.Headers = []) := by
  constructor
  · obtain ⟨out, ho, hw, hg⟩ := collapseParams_ok params [] hwf hne
    have hget : ∀ k v, GoMap.get out k = some v ↔
        ∃ vs, GoMap.get params k = some (v :: vs) := by
      intro k v
      rw [hg k]
      cases hk : GoMap.get params k with
      | none => simp [GoMap.get]
      | some l =>
        cases l with
        | nil => simp [GoMap.get]
        | cons x xs => simp [GoMap.get]
    have hnew : NewRequest c now hostname uri endpoint method params = .ok
        { RequestID := "", HopCount := "", Duration := 0, Method := method,
          Endpoint := endpoint, URI := uri, Hostname := hostname, App := c.appName,
          StartedAt := now, StoppedAt := 0, Params := out, Headers := [], Env := c.boarEnv,
          Events := Tracer.zero, Status := 0 } := by
      simp only [NewRequest, ho]
    refine ⟨_, hnew, ?_, ?_, ?_, rfl⟩
    · exact hw (by simp [GoMap.WF, GoMap.keys])
    · intro k
      show k ∈ GoMap.keys out ↔ _
      rw [GoMap.mem_keys_iff, GoMap.mem_keys_iff, Option.isSome_iff_exists,
        Option.isSome_iff_exists]
      constructor
      · rintro ⟨v, hv⟩
        obtain ⟨vs, hvs⟩ := (hget k v).1 hv
        exact ⟨_, hvs⟩
      · rintro ⟨l, hl⟩
        cases l with
        | nil => exact absurd rfl (hne (k, []) (GoMap.mem_of_get params k [] hl))
        | cons x xs => exact ⟨x, (hget k x).2 ⟨xs, hl⟩⟩
    · exact hget
  · exact ⟨_, rfl, rfl, rfl⟩

/-- C2 at a concrete call: the parameters `page = 2` and `tag = x, y`. -/
theorem newRequest_collapses_params_witness :
    GoMap.WF [("page", ["2"]), ("tag", ["x", "y"])] ∧
    (∀ e ∈ [("page", ["2"]), ("tag", ["x", "y"])], e.2 ≠ []) ∧
    ((∃ r, NewRequest Config.initial 5 "h" "/users?page=2" "/users" "GET"
          [("page", ["2"]), ("tag", ["x", "y"])] = .ok r ∧
        r.Params.WF ∧
        (∀ k, k ∈ r.Params.keys ↔ k ∈ GoMap.keys [("page", ["2"]), ("tag", ["x", "y"])]) ∧
        (∀ k v, r.Params.get k = some v ↔
          ∃ vs, GoMap.get [("page", ["2"]), ("tag", ["x", "y"])] k = some (v :: vs)) ∧
        r.Headers = []) ∧
      (∃ r, NewRequest Config.initial 5 "h" "/users?page=2" "/users" "GET"
            [("q", ["a", "b"])] = .ok r ∧
          r.Params = [("q", "a")] ∧ r.Headers = [])) :=
  ⟨by decide, by decide,
    newRequest_collapses_params Config.initial 5 "h" "/users?page=2" "/users" "GET"
      [("page", ["2"]), ("tag", ["x", "y"])]
      (by decide) (by decide)⟩

/-- C10 as stated fails: with a nil `root`, the first statement of
`Request.Stop`, `r.Events = *root`, panics with a nil dereference before any
header is read, so a header with a non-excluded name and an empty value list
does not lead to an index-out-of-range panic. -/
theorem stop_nil_root_counterexample :
    NewRequest Config.initial 5 "h" "/users" "/users" "GET" [] = .ok sampleRecord ∧
    (∃ e ∈ [("Accept", ([] : List String))],
      (¬ ∃ p ∈ ["X-", "Cookie", "Authorization", "If-"], p.toList <+: e.1.toList) ∧
        e.2 = []) ∧
    Request.Stop roundedMillis 9 sampleRecord none "id" "1" 200 [("Accept", [])] []
      = StopResult.panicked Panic.nilDereference [] ∧
    ¬ ∃ q, Request.Stop roundedMillis 9 sampleRecord none "id" "1" 200 [("Accept", [])] []
      = StopResult.panicked Panic.indexOutOfRange q := by
  refine ⟨rfl, ⟨("Accept", []), by simp, ?_, rfl⟩, rfl, ?_⟩
  · decide
  · rintro ⟨q, hq⟩
    simp [Request.Stop] at hq

/-- C10 (amended): called with a non-nil `root`, `Request.Stop` panics with an
index out of range exactly when some header whose name does not begin with
`X-`, `Cookie`, `Authorization` or `If-` lists no value (an excluded name
with an empty list does no harm); it raises no other panic, and a panic
leaves the channel as it was.  Otherwise the record is sent on the channel
exactly once, with `RequestID`, `HopCount`, `Status` and `Events` taken from
the arguments and `Method`, `Endpoint`, `URI`, `Hostname`, `App`, `Env`,
`StartedAt` and `Params` as they were.  Called with a nil `root` it panics
with a nil dereference whatever the headers, and sends nothing. -/
theorem stop_panics_iff (roundMs : Int → Float64) (now : Int) (r : Request) (root : Tracer)
    (reqid hop : String) (status : Int) (headers : GoMap (List String))
    (queue : List Request) :
    ((∃ q, Request.Stop roundMs now r (some root) reqid hop status headers queue
          = StopResult.panicked Panic.indexOutOfRange q) ↔
      ∃ e ∈ headers,
        (¬ ∃ p ∈ ["X-", "Cookie", "Authorization", "If-"], p.toList <+: e.1.toList) ∧
          e.2 = []) ∧
    (∀ p q, Request.Stop roundMs now r (some root) reqid hop status headers queue
          = StopResult.panicked p q → p = Panic.indexOutOfRange ∧ q = queue) ∧
    ((¬ ∃ q, Request.Stop roundMs now r (some root) reqid hop status headers queue
          = StopResult.panicked Panic.indexOutOfRange q) →
      ∃ r', Request.Stop roundMs now r (some root) reqid hop status headers queue
          = StopResult.done r' (queue ++ [r']) ∧
        r'.RequestID = reqid ∧ r'.HopCount = hop ∧ r'.Status = status ∧ r'.Events = root ∧
        r'.Method = r.Method ∧ r'.Endpoint = r.Endpoint ∧ r'.URI = r.URI ∧
        r'.Hostname = r.Hostname ∧ r'.App = r.App ∧ r'.Env = r.Env ∧
        r'.StartedAt = r.StartedAt ∧ r'.Params = r.Params) ∧
    Request.Stop roundMs now r none reqid hop status headers queue
      = StopResult.panicked Panic.nilDereference queue := by
  have hbad : (∃ e ∈ headers,
      (¬ ∃ p ∈ ["X-", "Cookie", "Authorization", "If-"], p.toList <+: e.1.toList) ∧ e.2 = [])
      ↔ ∃ e ∈ headers, BadHeader e := by
    constructor
    · rintro ⟨e, he, hb⟩; exact ⟨e, he, (badHeader_iff e).2 hb⟩
    · rintro ⟨e, he, hb⟩; exact ⟨e, he, (badHeader_iff e).1 hb⟩
  rw [hbad]
  by_cases hb : ∃ e ∈ headers, BadHeader e
  · have hc := copyHeaders_error headers r.Headers hb
    have hs : Request.Stop roundMs now r (some root) reqid hop status headers queue
        = StopResult.panicked Panic.indexOutOfRange queue := by
      simp only [Request.Stop, hc]
    refine ⟨⟨fun _ => hb, fun _ => ⟨queue, hs⟩⟩, ?_, ?_, rfl⟩
    · intro p q hpq
      rw [hs] at hpq
      simp only [StopResult.panicked.injEq] at hpq
      exact ⟨hpq.1.symm, hpq.2.symm⟩
    · intro hn
      exact absurd ⟨queue, hs⟩ hn
  · obtain ⟨out, ho⟩ := copyHeaders_total headers r.Headers hb
    obtain ⟨r', hs, -, h1, h2, h3, h4, h5, h6, h7, h8, h9, h10, h11, h12, -⟩ :=
      stop_of_copyHeaders roundMs now r root reqid hop status headers queue out ho
    refine ⟨⟨?_, fun h => absurd h hb⟩, ?_, ?_, rfl⟩
    · rintro ⟨q, hq⟩
      rw [hs] at hq
      cases hq
    · intro p q hpq
      rw [hs] at hpq
      cases hpq
    · intro _
      exact ⟨r', hs, h1, h2, h3, h4, h5, h6, h7, h8, h9, h10, h11, h12⟩

/-! ## Start and sendQueue -/

theorem sendQueue_disabled (lib : Lib) (c : Config) (reqs : List Request)
    (h : c.boarTransmit = false ∨ reqs = []) : sendQueue lib c reqs = SendResult.returned [] := by
  rcases h with h | h
  · simp [sendQueue, h]
  · simp [sendQueue, h]

/-- The part of the contract of `sendQueue` that holds whenever the request
can be built: nothing is sent when transmission is off or the batch is empty;
otherwise, serialization succeeding and the URL being accepted, exactly one
request is passed to `cli.Do`, a `POST` to the endpoint followed by
`/requests` with the header `Authorization: Token <token>`, and the call
returns. -/
theorem sendQueue_when_url_parses (lib : Lib) (c : Config) (reqs : List Request) :
    ((c.boarTransmit = false ∨ reqs = []) → sendQueue lib c reqs = SendResult.returned []) ∧
    (∀ b, c.boarTransmit = true → reqs ≠ [] → lib.marshal reqs = some b →
      lib.urlParse (c.boarEndpoint ++ "/requests") = true →
      (∃ es, sendQueue lib c reqs = SendResult.returned es) ∧
      (sendQueue lib c reqs).sends =
        [{ method := "POST", url := c.boarEndpoint ++ "/requests",
           header := [("Authorization", "Token " ++ c.boarToken)], body := b }]) ∧
    (c.boarTransmit = true → reqs ≠ [] → lib.marshal reqs = none →
      sendQueue lib c reqs = SendResult.returned [Effect.log "Error sending queue"]) := by
  refine ⟨sendQueue_disabled lib c reqs, ?_, ?_⟩
  · intro b ht hr hm hu
    have hl : reqs.length ≠ 0 := fun h => hr (List.length_eq_zero.1 h)
    by_cases htr : lib.transport
        { method := "POST", url := c.boarEndpoint ++ "/requests",
          header := [("Authorization", "Token " ++ c.boarToken)], body := b } = true
    · simp [sendQueue, httpNewRequest, ht, hl, hm, hu, htr, SendResult.sends]
    · simp [sendQueue, httpNewRequest, ht, hl, hm, hu, htr, SendResult.sends]
  · intro ht hr hm
    have hl : reqs.length ≠ 0 := fun h => hr (List.length_eq_zero.1 h)
    simp [sendQueue, ht, hl, hm]

/-- C5 (defect): with transmission enabled, a non-empty batch and successful
serialization, an endpoint for which `url.Parse` fails makes `http.NewRequest`
return a nil request, whose error `sendQueue` discards; the next statement
dereferences it, so the call panics and no request is issued. -/
theorem sendQueue_panics_on_bad_endpoint (lib : Lib) (c : Config) (reqs : List Request)
    (b : String) (ht : c.boarTransmit = true) (hr : reqs ≠ [])
    (hm : lib.marshal reqs = some b)
    (hu : lib.urlParse (c.boarEndpoint ++ "/requests") = false) :
    sendQueue lib c reqs = SendResult.panicked Panic.nilDereference [] ∧
      (sendQueue lib c reqs).sends = [] := by
  have hl : reqs.length ≠ 0 := fun h => hr (List.length_eq_zero.1 h)
  simp [sendQueue, httpNewRequest, ht, hl, hm, hu, SendResult.sends]

/-- C5 at the failing input: the endpoint `:` (the environment variable
`BOAR_ENDPOINT` set to a single colon), token `t`, a batch of one record. -/
theorem sendQueue_panics_on_bad_endpoint_witness :
    (Start (fun _ => ":") "t" "prod" "app" Config.initial).boarTransmit = true ∧
    (Start (fun _ => ":") "t" "prod" "app" Config.initial).boarEndpoint = ":" ∧
    [sampleRecord] ≠ [] ∧
    sampleLib.marshal [sampleRecord] = some "[...]" ∧
    sampleLib.urlParse (":" ++ "/requests") = false ∧
    sendQueue sampleLib (Start (fun _ => ":") "t" "prod" "app" Config.initial) [sampleRecord]
      = SendResult.panicked Panic.nilDereference [] ∧
    (sendQueue sampleLib (Start (fun _ => ":") "t" "prod" "app" Config.initial)
      [sampleRecord]).sends = [] :=
  ⟨rfl, rfl, by simp, rfl, rfl,
    sendQueue_panics_on_bad_endpoint sampleLib
      (Start (fun _ => ":") "t" "prod" "app" Config.initial) [sampleRecord] "[...]"
      rfl (by simp) rfl rfl⟩

/-- C6 as stated fails: `Start` called with an empty token on a configuration
whose transmit flag is already set (here left by an earlier `Start` with the
token `tok`) leaves transmission enabled, and `sendQueue` then posts a
batch. -/
theorem start_empty_token_counterexample :
    (Start (fun _ => "") "" "prod" "app"
        (Start (fun _ => "") "tok" "prod" "app" Config.initial)).boarTransmit = true ∧
    sendQueue sampleLib
        (Start (fun _ => "") "" "prod" "app"
          (Start (fun _ => "") "tok" "prod" "app" Config.initial)) [sampleRecord]
      = SendResult.returned [Effect.send
          { method := "POST", url := "https://push.boar.io/requests",
            header := [("Authorization", "Token ")], body := "[...]" }] := by
  constructor
  · rfl
  · rfl

/-- C6 (amended): after `Start(token, env, app)` the transmit flag is set
exactly when the token is non-empty or the flag was set before the call.
From a configuration whose flag is clear, such as the initial one, it is
therefore set exactly when the token is non-empty, and after `Start` with an
empty token `sendQueue` does nothing for every batch.  `Start` also stores
the token, the environment and the application name. -/
theorem start_transmit_flag (getenv : String → String) (token env app : String) (c : Config) :
    ((Start getenv token env app c).boarTransmit = true ↔
      (token ≠ "" ∨ c.boarTransmit = true)) ∧
    ((Start getenv token env app Config.initial).boarTransmit = true ↔ token ≠ "") ∧
    (c.boarTransmit = false →
      ((Start getenv token env app c).boarTransmit = true ↔ token ≠ "")) ∧
    (c.boarTransmit = false → ∀ (lib : Lib) (reqs : List Request),
      sendQueue lib (Start getenv "" env app c) reqs = SendResult.returned []) ∧
    ((Start getenv token env app c).boarToken = token ∧
      (Start getenv token env app c).boarEnv = env ∧
      (Start getenv token env app c).appName = app) := by
  have key : ∀ c' : Config, (Start getenv token env app c').boarTransmit = true ↔
      (token ≠ "" ∨ c'.boarTransmit = true) := by
    intro c'
    by_cases ht : token = ""
    · simp [Start, ht]
    · by_cases ha : getenv "BOAR_ENDPOINT" = ""
      · simp [Start, ht, ha]
      · simp [Start, ht, ha]
  refine ⟨key c, ?_, ?_, ?_, ?_⟩
  · rw [key]; simp [Config.initial]
  · intro hc; rw [key]; simp [hc]
  · intro hc lib reqs
    apply sendQueue_disabled
    left
    simp [Start, hc]
  · by_cases ht : token = ""
    · simp [Start, ht]
    · by_cases ha : getenv "BOAR_ENDPOINT" = ""
      · simp [Start, ht, ha]
      · simp [Start, ht, ha]

/-! ## Tracers -/

theorem timeSub_mono (a b u : Int) (h : a ≤ b) : timeSub a u ≤ timeSub b u := by
  unfold timeSub
  exact max_le_max le_rfl (min_le_min le_rfl (by omega))

theorem timeSub_nonneg {a u : Int} (h : u ≤ a) : 0 ≤ timeSub a u := by
  unfold timeSub
  apply le_max_of_le_right
  apply le_min
  · unfold maxDuration; norm_num
  · omega

theorem timeSub_eq {a u : Int} (h : u ≤ a) (hb : a - u < 2 ^ 53) : timeSub a u = a - u := by
  unfold timeSub minDuration maxDuration
  have h1 : min (2 ^ 63 - 1) (a - u) = a - u := min_eq_right (by norm_num at hb ⊢; omega)
  rw [h1]
  exact max_eq_right (by norm_num; omega)

/-- C7 as stated fails.  A zero-valued tracer stopped when `Sub` saturates,
at `n = 2 ^ 63 - 1` elapsed nanoseconds, gets a `Duration` with
`Duration * 10000 = 92233720368547753.90625`: not an integer, and more than 4
away from `n / 100 = 92233720368547758.07`.  Already at `n = 100` the
`Duration`, the `float64` nearest to `0.0001`, times 10000 is not an
integer. -/
theorem duration_rounding_counterexample :
    Tracer.zero.StartedAt ≤ 9223372036854775807 ∧
    (Tracer.Stop roundedMillis 9223372036854775807 Tracer.zero).Duration * 10000
      = 2951479051793528125 / 32 ∧
    (¬ ∃ K : Int,
      (Tracer.Stop roundedMillis 9223372036854775807 Tracer.zero).Duration * 10000 = K ∧
        |(K : ℚ) - 9223372036854775807 / 100| ≤ 1 / 2) ∧
    4 < |(Tracer.Stop roundedMillis 9223372036854775807 Tracer.zero).Duration * 10000
          - 9223372036854775807 / 100| ∧
    (Tracer.Stop roundedMillis 100 Tracer.zero).Duration
      = 7378697629483821 / 73786976294838206464 ∧
    ¬ ∃ K : Int, (Tracer.Stop roundedMillis 100 Tracer.zero).Duration * 10000 = K := by
  have t1 : timeSub 9223372036854775807 0 = 9223372036854775807 := by
    unfold timeSub minDuration maxDuration
    norm_num
  have t2 : timeSub 100 0 = 100 := by
    unfold timeSub minDuration maxDuration
    norm_num
  have d1 : (Tracer.Stop roundedMillis 9223372036854775807 Tracer.zero).Duration
      = 4722366482869645 / 512 := by
    show roundedMillis (timeSub 9223372036854775807 0) = _
    rw [t1, roundedMillis_maxDuration]
  have d2 : (Tracer.Stop roundedMillis 100 Tracer.zero).Duration
      = 7378697629483821 / 73786976294838206464 := by
    show roundedMillis (timeSub 100 0) = _
    rw [t2, roundedMillis_hundred]
  refine ⟨by decide, ?_, ?_, ?_, d2, ?_⟩
  · rw [d1]; norm_num
  · rintro ⟨K, hK, -⟩
    rw [d1] at hK
    have h32 : (32 : ℚ) * K = 2951479051793528125 := by
      rw [← hK]; norm_num
    have : (32 : Int) * K = 2951479051793528125 := by exact_mod_cast h32
    omega
  · rw [d1]
    rw [lt_abs]
    right
    norm_num
  · rintro ⟨K, hK⟩
    rw [d2] at hK
    have h62 : (4611686018427387904 : ℚ) * K = 4611686018427388125 := by
      rw [← hK]; norm_num
    have : (4611686018427387904 : Int) * K = 4611686018427388125 := by exact_mod_cast h62
    omega

/-- C7 (amended): for a start and a stop timestamp not earlier than it, the
`Duration` set by `Tracer.Stop`, and likewise by `Request.Stop`, is the
rounding `roundedMillis` of the elapsed nanoseconds and is never negative.
When the elapsed count `n` is below `2 ^ 53` (about 104 days) it is the
`float64` nearest to the decimal value with exactly 4 fractional digits
`K / 10000`, where the integer `K` is within 1/2 of `n / 100` (the value
`n / 1000000` rounded to 4 decimal places), and it differs from that decimal
value by at most `2 ^ (-20)`. -/
theorem duration_rounding (start now : Int) (h : start ≤ now) :
    (∀ t : Tracer, t.StartedAt = start →
      (Tracer.Stop roundedMillis now t).Duration = roundedMillis (timeSub now start)) ∧
    (∀ (r : Request) (root : Option Tracer) (reqid hop : String) (status : Int)
        (headers : GoMap (List String)) (queue : List Request) (r' : Request)
        (q : List Request), r.StartedAt = start →
      Request.Stop roundedMillis now r root reqid hop status headers queue
        = StopResult.done r' q →
      r'.Duration = roundedMillis (timeSub now start)) ∧
    0 ≤ roundedMillis (timeSub now start) ∧
    (now - start < 2 ^ 53 →
      timeSub now start = now - start ∧
      ∃ K : Int, roundedMillis (timeSub now start) = toFloat64 ((K : ℚ) / 10000) ∧
        |(K : ℚ) - ((now - start : Int) : ℚ) / 100| ≤ 1 / 2 ∧
        |roundedMillis (timeSub now start) - (K : ℚ) / 10000| ≤ 1 / 1048576) := by
  refine ⟨?_, ?_, roundedMillis_nonneg (timeSub_nonneg h), ?_⟩
  · intro t ht
    subst ht
    rfl
  · intro r root reqid hop status headers queue r' q hr hs
    subst hr
    cases root with
    | none => simp [Request.Stop] at hs
    | some events =>
      cases hc : copyHeaders headers r.Headers with
      | error p => simp [Request.Stop, hc] at hs
      | ok out =>
        obtain ⟨r'', hs', -, -, -, -, -, -, -, -, -, -, -, -, -, -, hd⟩ :=
          stop_of_copyHeaders roundedMillis now r events reqid hop status headers queue out hc
        rw [hs'] at hs
        simp only [StopResult.done.injEq] at hs
        rw [← hs.1]
        exact hd
  · intro hb
    have e := timeSub_eq h hb
    refine ⟨e, ?_⟩
    rw [e]
    obtain ⟨K, hK, hd⟩ := formatted_within_half (n := now - start) (by omega) hb
    refine ⟨K, hK, hd, ?_⟩
    rw [hK]
    exact parse_error_le (by omega) hb hd

/-- C7 at a concrete pair of timestamps: start 5, stop 1234572, an elapsed
time of 1.234567 ms; the `Duration` is the `float64` nearest to 1.2346. -/
theorem duration_rounding_witness :
    (5 : Int) ≤ 1234572 ∧ (1234572 : Int) - 5 < 2 ^ 53 ∧
    0 ≤ roundedMillis (timeSub 1234572 5) ∧
    timeSub 1234572 5 = 1234567 ∧
    roundedMillis (timeSub 1234572 5) = toFloat64 (12346 / 10000) ∧
    |roundedMillis (timeSub 1234572 5) - 12346 / 10000| ≤ 1 / 1048576 := by
  obtain ⟨-, -, h3, h4⟩ := duration_rounding 5 1234572 (by decide)
  obtain ⟨e, K, hK, hd, hp⟩ := h4 (by decide)
  have hK' : K = 12346 := by
    rw [abs_le] at hd
    have a : (K : ℚ) < 12347 := by
      have : (((1234572 - 5 : Int)) : ℚ) = 1234567 := by norm_num
      rw [this] at hd
      linarith [hd.2]
    have b : (12345 : ℚ) < K := by
      have : (((1234572 - 5 : Int)) : ℚ) = 1234567 := by norm_num
      rw [this] at hd
      linarith [hd.1]
    have a' : K < 12347 := by exact_mod_cast a
    have b' : 12345 < K := by exact_mod_cast b
    omega
  subst hK'
  refine ⟨by decide, by decide, h3, ?_, ?_, ?_⟩
  · rw [e]; norm_num
  · simpa using hK
  · simpa using hp

/-- C9 as stated fails: when the clock shows the same reading at both calls
(which a non-decreasing clock may), the second `Stop` stores the same
`Duration` as the first, not a larger one, whatever the rounding function;
and with the rounding of the code a second `Stop` one nanosecond later also
stores the same `Duration`. -/
theorem stop_twice_counterexample :
    (7 : Int) ≤ 7 ∧
    (¬ ∃ roundMs : Int → Float64,
      (Tracer.Stop roundMs 7 (Tracer.Stop roundMs 7 { Tracer.zero with StartedAt := 3 })).Duration
        > (Tracer.Stop roundMs 7 { Tracer.zero with StartedAt := 3 }).Duration) ∧
    (7 : Int) ≤ 8 ∧
    ¬ ((Tracer.Stop roundedMillis 8
          (Tracer.Stop roundedMillis 7 { Tracer.zero with StartedAt := 3 })).Duration
        > (Tracer.Stop roundedMillis 7 { Tracer.zero with StartedAt := 3 }).Duration) := by
  refine ⟨le_rfl, ?_, by decide, ?_⟩
  · rintro ⟨roundMs, h⟩
    exact lt_irrefl _ h
  · have t1 : timeSub 8 3 = 5 := by
      unfold timeSub minDuration maxDuration
      norm_num
    have t2 : timeSub 7 3 = 4 := by
      unfold timeSub minDuration maxDuration
      norm_num
    have d1 : (Tracer.Stop roundedMillis 8
        (Tracer.Stop roundedMillis 7 { Tracer.zero with StartedAt := 3 })).Duration = 0 := by
      show roundedMillis (timeSub 8 3) = 0
      rw [t1]
      exact roundedMillis_small (by norm_num) (by norm_num)
    have d2 : (Tracer.Stop roundedMillis 7 { Tracer.zero with StartedAt := 3 }).Duration
        = 0 := by
      show roundedMillis (timeSub 7 3) = 0
      rw [t2]
      exact roundedMillis_small (by norm_num) (by norm_num)
    rw [d1, d2]
    exact lt_irrefl _

/-- C9 (amended): a second `Stop` overwrites `StoppedAt` and `Duration` with
the values computed from the later clock reading (the result is that of a
single `Stop` at the later reading) and leaves `StartedAt`, `Name`,
`Description`, `Tree` and `Parent` unchanged; the clock being non-decreasing
between the two calls, the `Duration` after the second `Stop` is not smaller
than after the first, and equal to it when the two readings coincide. -/
theorem stop_twice (t : Tracer) (now1 now2 : Int) (hclock : now1 ≤ now2) :
    (Tracer.Stop roundedMillis now2 (Tracer.Stop roundedMillis now1 t)).StoppedAt = now2 ∧
    (Tracer.Stop roundedMillis now2 (Tracer.Stop roundedMillis now1 t)).Duration
      = roundedMillis (timeSub now2 (Tracer.Stop roundedMillis now1 t).StartedAt) ∧
    Tracer.Stop roundedMillis now2 (Tracer.Stop roundedMillis now1 t)
      = Tracer.Stop roundedMillis now2 t ∧
    (Tracer.Stop roundedMillis now2 (Tracer.Stop roundedMillis now1 t)).StartedAt
      = (Tracer.Stop roundedMillis now1 t).StartedAt ∧
    (Tracer.Stop roundedMillis now2 (Tracer.Stop roundedMillis now1 t)).Name
      = (Tracer.Stop roundedMillis now1 t).Name ∧
    (Tracer.Stop roundedMillis now2 (Tracer.Stop roundedMillis now1 t)).Description
      = (Tracer.Stop roundedMillis now1 t).Description ∧
    (Tracer.Stop roundedMillis now2 (Tracer.Stop roundedMillis now1 t)).Tree
      = (Tracer.Stop roundedMillis now1 t).Tree ∧
    (Tracer.Stop roundedMillis now2 (Tracer.Stop roundedMillis now1 t)).Parent
      = (Tracer.Stop roundedMillis now1 t).Parent ∧
    (Tracer.Stop roundedMillis now1 t).Duration
      ≤ (Tracer.Stop roundedMillis now2 (Tracer.Stop roundedMillis now1 t)).Duration ∧
    (now1 = now2 →
      (Tracer.Stop roundedMillis now2 (Tracer.Stop roundedMillis now1 t)).Duration
        = (Tracer.Stop roundedMillis now1 t).Duration) := by
  refine ⟨rfl, rfl, rfl, rfl, rfl, rfl, rfl, rfl, ?_, ?_⟩
  · exact roundedMillis_mono (timeSub_mono now1 now2 t.StartedAt hclock)
  · intro h
    subst h
    rfl

/-- C9 at a concrete tracer: started at 3, stopped at 7 and again at 9. -/
theorem stop_twice_witness :
    (7 : Int) ≤ 9 ∧
    (Tracer.Stop roundedMillis 9
      (Tracer.Stop roundedMillis 7 { Tracer.zero with StartedAt := 3 })).StoppedAt = 9 ∧
    (Tracer.Stop roundedMillis 7 { Tracer.zero with StartedAt := 3 }).Duration
      ≤ (Tracer.Stop roundedMillis 9
          (Tracer.Stop roundedMillis 7 { Tracer.zero with StartedAt := 3 })).Duration :=
  have h := stop_twice { Tracer.zero with StartedAt := 3 } 7 9 (by decide)
  ⟨by decide, h.1, h.2.2.2.2.2.2.2.2.1⟩

theorem Store.update_next (s : Store) (p : Nat) (f : Tracer → Tracer) :
    (s.update p f).next = s.next := rfl

theorem atCall_next (t : Nat) (name desc : String) (clock : Clock) (s : Store) :
    (atCall t name desc clock s).next = s.next + 1 := rfl

end Boar
